import Mathlib

/-!
Formal model of the aws-relay observation layer, translated from
`src/internal/dashboard/dashboard.go` (Go packages `store`, `proxy`).

Go maps are modelled as association lists with insert-or-replace update;
only lookups and iteration-order-insensitive facts are stated about them,
matching Go's unspecified map iteration order.  Wall-clock timestamps are
passed in as explicit `Nat` parameters (`time.Now()` at each call site).
The global id counter of `generateID` is threaded through the store state
as `counter`; the rendered identifier string is modelled separately by
`goGenerateID` below, which reproduces Go's `string(rune(n))` conversion
exactly.  Because Go shares one `*Message` object between the
current-state map and the history slice in `RecordSend`, each allocated
record carries an allocation token `ref`; `RecordDelete`'s in-place
mutation is applied both to the map entry and to aliased history entries.
-/

/-- Association-list lookup keyed on the first component, modelling a Go
map read `m[k]`. -/
def lookupKV {α : Type} (k : String) : List (String × α) → Option α
  | [] => none
  | (k₂, v) :: rest => if k₂ = k then some v else lookupKV k rest

/-- Association-list insert-or-replace, modelling a Go map write
`m[k] = v`. -/
def insertKV {α : Type} (k : String) (v : α) : List (String × α) → List (String × α)
  | [] => [(k, v)]
  | (k₂, v₂) :: rest => if k₂ = k then (k₂, v) :: rest else (k₂, v₂) :: insertKV k v rest

/-- Adding an element to a membership set (`set[x] = true` on a Go
`map[string]bool`). -/
def setAdd (x : String) (l : List String) : List String :=
  if x ∈ l then l else l ++ [x]

/-- Go `store.MessageAction`: the three lifecycle event kinds. -/
inductive MessageAction : Type
  | send
  | receive
  | delete
deriving DecidableEq

/-- Go `store.Message`: one lifecycle record.  `id` is the value of the
global id counter when the record was generated (see `goGenerateID` for
the rendered string); `ref` is the allocation token standing for Go
pointer identity. -/
structure Msg : Type where
  id : Nat
  ref : Nat
  messageID : String
  receiptHandle : String
  queueURL : String
  queueName : String
  body : String
  attributes : List (String × String)
  action : MessageAction
  timestamp : Nat
  deleted : Bool
  deletedAt : Option Nat
deriving DecidableEq

instance : Inhabited Msg :=
  ⟨{ id := 0, ref := 0, messageID := "", receiptHandle := "", queueURL := "",
     queueName := "", body := "", attributes := [], action := .send,
     timestamp := 0, deleted := false, deletedAt := none }⟩

/-- Go `store.QueueStats`: per-queue derived statistics. -/
structure QueueStats : Type where
  queueName : String
  queueURL : String
  totalSent : Nat
  totalReceived : Nat
  totalDeleted : Nat
  pending : Nat
deriving DecidableEq

/-- Go `store.Store`: the four shared structures, plus the global id
counter and the allocation token supply. -/
structure Store : Type where
  messages : List (String × Msg)
  queues : List (String × List String)
  history : List Msg
  receipts : List (String × String)
  counter : Nat
  alloc : Nat
deriving DecidableEq

/-- Go `store.New()` (with the process-global id counter at zero). -/
def emptyStore : Store :=
  { messages := [], queues := [], history := [], receipts := [], counter := 0, alloc := 0 }

/-- `s.queues[queueName][messageID] = true` with the nil-map
initialization from `RecordSend` / `RecordReceive`. -/
def queuesAdd (q mid : String) (qs : List (String × List String)) : List (String × List String) :=
  match lookupKV q qs with
  | none => insertKV q [mid] qs
  | some set => insertKV q (setAdd mid set) qs

/-- The `Message` allocated by `Store.RecordSend`. -/
def sendEvent (s : Store) (queueURL queueName messageID body : String)
    (attributes : List (String × String)) (now : Nat) : Msg :=
  { id := s.counter + 1, ref := s.alloc + 1, messageID := messageID,
    receiptHandle := "", queueURL := queueURL, queueName := queueName,
    body := body, attributes := attributes, action := .send,
    timestamp := now, deleted := false, deletedAt := none }

/-- Go `Store.RecordSend`: upsert current state, register queue
membership, append to history.  The same record (same `ref`) is stored
in the map and in history, as in the Go source where both hold one
pointer. -/
def recordSend (s : Store) (queueURL queueName messageID body : String)
    (attributes : List (String × String)) (now : Nat) : Store :=
  let msg := sendEvent s queueURL queueName messageID body attributes now
  { s with
    counter := s.counter + 1
    alloc := s.alloc + 1
    messages := insertKV messageID msg s.messages
    queues := queuesAdd queueName messageID s.queues
    history := s.history ++ [msg] }

/-- The history `event` allocated by `Store.RecordReceive`. -/
def recvEvent (s : Store) (queueURL queueName messageID receiptHandle body : String)
    (attributes : List (String × String)) (now : Nat) : Msg :=
  { id := s.counter + 1, ref := s.alloc + 1, messageID := messageID,
    receiptHandle := receiptHandle, queueURL := queueURL, queueName := queueName,
    body := body, attributes := attributes, action := .receive,
    timestamp := now, deleted := false, deletedAt := none }

/-- Go `Store.RecordReceive`: always appends a receive event and updates
the receipt index; creates a current-state entry and queue membership
only when the message id is new.  The current-state record is a second
allocation (`ref`, second `time.Now()` value `now₂`) sharing the event's
id, exactly as in the source. -/
def recordReceive (s : Store) (queueURL queueName messageID receiptHandle body : String)
    (attributes : List (String × String)) (now now₂ : Nat) : Store :=
  let event := recvEvent s queueURL queueName messageID receiptHandle body attributes now
  let s₁ := { s with
    counter := s.counter + 1
    alloc := s.alloc + 1
    history := s.history ++ [event]
    receipts := insertKV receiptHandle messageID s.receipts }
  match lookupKV messageID s.messages with
  | some _ => s₁
  | none =>
    let msg : Msg := { event with ref := s.alloc + 2, timestamp := now₂ }
    { s₁ with
      alloc := s.alloc + 2
      messages := insertKV messageID msg s₁.messages
      queues := queuesAdd queueName messageID s₁.queues }

/-- The blank delete `event` allocated by `Store.RecordDelete` before the
receipt lookup. -/
def deleteEvent (s : Store) (queueURL queueName receiptHandle : String) (now : Nat) : Msg :=
  { id := s.counter + 1, ref := s.alloc + 1, messageID := "",
    receiptHandle := receiptHandle, queueURL := queueURL, queueName := queueName,
    body := "", attributes := [], action := .delete,
    timestamp := now, deleted := false, deletedAt := none }

/-- Go `Store.RecordDelete`: resolve the receipt handle; on a hit, mark
the current-state record deleted in place (the in-place pointer mutation
also reaches aliased history entries, modelled via `ref`) and copy its
body into the event; on a miss, record history only. -/
def recordDelete (s : Store) (queueURL queueName receiptHandle : String) (now : Nat) : Store :=
  let event := deleteEvent s queueURL queueName receiptHandle now
  match lookupKV receiptHandle s.receipts with
  | none =>
    { s with
      counter := s.counter + 1
      alloc := s.alloc + 1
      history := s.history ++ [event] }
  | some messageID =>
    match lookupKV messageID s.messages with
    | none =>
      { s with
        counter := s.counter + 1
        alloc := s.alloc + 1
        history := s.history ++ [{ event with messageID := messageID }] }
    | some msg =>
      { s with
        counter := s.counter + 1
        alloc := s.alloc + 1
        messages := insertKV messageID { msg with deleted := true, deletedAt := some now } s.messages
        history :=
          (s.history.map (fun e =>
            if e.ref = msg.ref then { e with deleted := true, deletedAt := some now } else e))
          ++ [{ event with messageID := messageID, body := msg.body }] }

/-- Go `Store.GetMessages`: snapshot of current-state records, filtered
by queue name and deletion flag (the two `continue` conditions of the
source loop). -/
def getMessages (s : Store) (queueName : String) (includeDeleted : Bool) : List Msg :=
  (s.messages.filter (fun p =>
    !(((queueName != "") && (p.2.queueName != queueName)) ||
      (!includeDeleted && p.2.deleted)))).map Prod.snd

/-- Go `Store.GetHistory`: clamp the limit, then copy the most recent
`limit` entries most-recent-first (`result[i] = history[len-1-i]`). -/
def getHistory (s : Store) (limit : Int) : List Msg :=
  let n := s.history.length
  let l := if limit ≤ 0 ∨ (n : Int) < limit then n else limit.toNat
  (List.range l).map (fun i => s.history.getD (n - 1 - i) default)

/-- A fresh `QueueStats` entry as initialized from the first history
event of a queue. -/
def initStats (e : Msg) : QueueStats :=
  { queueName := e.queueName, queueURL := e.queueURL,
    totalSent := 0, totalReceived := 0, totalDeleted := 0, pending := 0 }

/-- The `switch event.Action` increment of `GetQueueStats`. -/
def bumpStat (st : QueueStats) (a : MessageAction) : QueueStats :=
  match a with
  | .send => { st with totalSent := st.totalSent + 1 }
  | .receive => { st with totalReceived := st.totalReceived + 1 }
  | .delete => { st with totalDeleted := st.totalDeleted + 1 }

/-- One iteration of the first `GetQueueStats` loop over history. -/
def statsStep (acc : List (String × QueueStats)) (e : Msg) : List (String × QueueStats) :=
  match lookupKV e.queueName acc with
  | none => insertKV e.queueName (bumpStat (initStats e) e.action) acc
  | some st => insertKV e.queueName (bumpStat st e.action) acc

/-- First `GetQueueStats` pass: per-queue event counts from history. -/
def statsPass1 (history : List Msg) : List (String × QueueStats) :=
  history.foldl statsStep []

/-- The inner pending loop of `GetQueueStats`: members of a queue's
membership set whose current-state record exists and is not deleted. -/
def pendingCount (messages : List (String × Msg)) (set : List String) : Nat :=
  set.countP (fun mid =>
    match lookupKV mid messages with
    | some m => !m.deleted
    | none => false)

/-- One iteration of the second `GetQueueStats` loop over the queue
membership table: skip queues without a stats entry, else fill in
pending. -/
def pass2Step (ms : List (String × Msg)) (a : List (String × QueueStats))
    (p : String × List String) : List (String × QueueStats) :=
  match lookupKV p.1 a with
  | none => a
  | some st => insertKV p.1 { st with pending := pendingCount ms p.2 } a

/-- Second `GetQueueStats` pass: fill in pending for queues that have a
stats entry, skipping membership sets of queues absent from history. -/
def statsPass2 (s : Store) (acc : List (String × QueueStats)) : List (String × QueueStats) :=
  s.queues.foldl (pass2Step s.messages) acc

/-- Go `Store.GetQueueStats`. -/
def getQueueStats (s : Store) : List QueueStats :=
  (statsPass2 s (statsPass1 s.history)).map Prod.snd

/-- Go `Store.Clear`: atomically empty all four structures. -/
def clearStore (s : Store) : Store :=
  { messages := [], queues := [], history := [], receipts := []
    counter := s.counter
    alloc := s.alloc }

/-- Truncation of a Go `int64` to `int32`, as performed by the
conversion `rune(idCounter)`. -/
def toInt32 (n : Int) : Int :=
  (n + 2 ^ 31) % 2 ^ 32 - 2 ^ 31

/-- Go `string(rune(n))` for an `int64` counter value: the code point
itself when the truncated value is a valid non-surrogate code point,
U+FFFD otherwise.  The result is the code point of the one-character
string. -/
def goStringOfRune (n : Int) : Nat :=
  let r := toInt32 n
  if (0 ≤ r ∧ r < 0xD800) ∨ (0xDFFF < r ∧ r ≤ 0x10FFFF) then r.toNat else 0xFFFD

/-- Go `generateID`, as a sequence of code points: the formatted
wall-clock second `ts`, a dash, and the single character
`string(rune(counter))`. -/
def goGenerateID (ts : List Nat) (counter : Int) : List Nat :=
  ts ++ [45] ++ [goStringOfRune counter]

/-- Match a literal at the head of the input, returning the remaining
input on success. -/
def dropLit : List Char → List Char → Option (List Char)
  | [], s => some s
  | _ :: _, [] => none
  | c :: lit, d :: s => if c = d then dropLit lit s else none

/-- Go `parseActionFromTarget`: strip the literal prefix `AmazonSQS.`
(`strings.HasPrefix` / `strings.TrimPrefix`), else yield the empty
string. -/
def parseActionFromTarget (target : String) : String :=
  if "AmazonSQS.".toList.isPrefixOf target.toList then
    String.mk (target.toList.drop 10)
  else ""

/-- Leftmost match of the regular expression `fieldeq([^&]+)` (with
`fieldeq` a literal such as `Action=`): scan left to right, and at the
first position where the literal is followed by a nonempty run of
non-`&` characters, capture that maximal run. -/
def findFormFieldList (fieldeq : List Char) : List Char → Option String
  | [] => none
  | c :: rest =>
    match dropLit fieldeq (c :: rest) with
    | some r₁ =>
      let vs := r₁.takeWhile (fun d => d ≠ '&')
      if vs.isEmpty then findFormFieldList fieldeq rest else some (String.mk vs)
    | none => findFormFieldList fieldeq rest

/-- Go `parseActionFromForm`: first `Action=([^&]+)` capture, or the
sentinel `Unknown`. -/
def parseActionFromForm (body : String) : String :=
  match findFormFieldList "Action=".toList body.toList with
  | some a => a
  | none => "Unknown"

/-- The action selection of `Proxy.modifyResponse`: the target header
parse, falling back to the form `Action` field when it yields the empty
string. -/
def identifyAction (amzTarget body : String) : String :=
  let a := parseActionFromTarget amzTarget
  if a = "" then parseActionFromForm body else a

/-- The `switch action` of `Proxy.modifyResponse`: actions that dispatch
to a recording handler. -/
def dispatchesRecording (action : String) : Bool :=
  action = "SendMessage" || action = "SendMessageBatch" || action = "ReceiveMessage" ||
    action = "DeleteMessage" || action = "DeleteMessageBatch"

/-- Hexadecimal digit value, as accepted by Go's `url.QueryUnescape`. -/
def hexVal (c : Char) : Option Nat :=
  if '0' ≤ c ∧ c ≤ '9' then some (c.toNat - '0'.toNat)
  else if 'a' ≤ c ∧ c ≤ 'f' then some (c.toNat - 'a'.toNat + 10)
  else if 'A' ≤ c ∧ c ≤ 'F' then some (c.toNat - 'A'.toNat + 10)
  else none

/-- The character-level recursion of Go's `url.QueryUnescape`: `+`
becomes a space, `%XY` becomes the byte `16*X+Y`, and a malformed escape
fails the whole conversion. -/
def qUnescape : List Char → Option (List Char)
  | [] => some []
  | '+' :: rest => (qUnescape rest).map (fun l => ' ' :: l)
  | '%' :: a :: b :: rest =>
    match hexVal a, hexVal b with
    | some x, some y => (qUnescape rest).map (fun l => Char.ofNat (16 * x + y) :: l)
    | _, _ => none
  | '%' :: _ => none
  | c :: rest => (qUnescape rest).map (fun l => c :: l)

/-- Go `url.QueryUnescape` with the error ignored (`decoded, _ := ...`):
a malformed input yields the empty string. -/
def goQueryUnescape (s : String) : String :=
  match qUnescape s.toList with
  | some cs => String.mk cs
  | none => ""

/-- One attempted match, at the head of the input, of the regular
expression `MessageAttribute\.(\d+)` followed by the literal `mid`
(either `.Name=` or `.Value.StringValue=`) and a capture `([^&]+)`.
Returns the two raw captures and the input remaining after the match. -/
def tryMatchAttr (mid : List Char) (s : List Char) : Option (String × String × List Char) :=
  match dropLit "MessageAttribute.".toList s with
  | none => none
  | some r₁ =>
    let ds := r₁.takeWhile Char.isDigit
    let r₂ := r₁.dropWhile Char.isDigit
    if ds.isEmpty then none
    else
      match dropLit mid r₂ with
      | none => none
      | some r₃ =>
        let vs := r₃.takeWhile (fun d => d ≠ '&')
        let r₄ := r₃.dropWhile (fun d => d ≠ '&')
        if vs.isEmpty then none else some (String.mk ds, String.mk vs, r₄)

/-- `regexp.FindAllStringSubmatch`: all non-overlapping leftmost matches,
resuming after each match.  The fuel is the input length; every step
consumes at least one character. -/
def scanAttrsFuel (mid : List Char) : Nat → List Char → List (String × String)
  | 0, _ => []
  | _, [] => []
  | fuel + 1, c :: rest =>
    match tryMatchAttr mid (c :: rest) with
    | some (ds, vs, r₄) => (ds, vs) :: scanAttrsFuel mid fuel r₄
    | none => scanAttrsFuel mid fuel rest

/-- All `(index, capture)` pairs of the attribute regex with middle
literal `mid` over a body. -/
def scanAttrs (mid : List Char) (s : List Char) : List (String × String) :=
  scanAttrsFuel mid s.length s

/-- Building a Go map from matches in order: later occurrences of an
index key overwrite earlier ones. -/
def buildKV (pairs : List (String × String)) : List (String × String) :=
  pairs.foldl (fun m p => insertKV p.1 p.2 m) []

/-- The `names` map of `extractMessageAttributes` (form path): index ↦
percent-decoded attribute name. -/
def attrNames (body : String) : List (String × String) :=
  buildKV ((scanAttrs ".Name=".toList body.toList).map (fun p => (p.1, goQueryUnescape p.2)))

/-- The `values` map of `extractMessageAttributes` (form path): index ↦
percent-decoded attribute value. -/
def attrValues (body : String) : List (String × String) :=
  buildKV ((scanAttrs ".Value.StringValue=".toList body.toList).map
    (fun p => (p.1, goQueryUnescape p.2)))

/-- Go `extractMessageAttributes` for the form encoding: join the two
index-keyed maps, keeping indices present in both. -/
def extractMessageAttributesForm (body : String) : List (String × String) :=
  (attrNames body).foldl (fun attrs p =>
    match lookupKV p.1 (attrValues body) with
    | some v => insertKV p.2 v attrs
    | none => attrs) []

/-- A recording call on the store, with all arguments including the
observation timestamps. -/
inductive StoreOp : Type
  | send (queueURL queueName messageID body : String)
      (attributes : List (String × String)) (now : Nat)
  | recv (queueURL queueName messageID receiptHandle body : String)
      (attributes : List (String × String)) (now now₂ : Nat)
  | del (queueURL queueName receiptHandle : String) (now : Nat)

/-- Apply one recording call. -/
def applyOp (s : Store) : StoreOp → Store
  | .send u q m b a now => recordSend s u q m b a now
  | .recv u q m rh b a now now₂ => recordReceive s u q m rh b a now now₂
  | .del u q rh now => recordDelete s u q rh now

/-- Apply a sequence of recording calls in order. -/
def applyOps (s : Store) (ops : List StoreOp) : Store :=
  ops.foldl applyOp s

/-- Whether an operation is a `RecordSend` for provider message id `m`. -/
def sendsTo (op : StoreOp) (m : String) : Bool :=
  match op with
  | .send _ _ mid _ _ _ => mid = m
  | _ => false

/-- Store states reachable from `New()` by recording calls and clears. -/
inductive Reachable : Store → Prop
  | empty : Reachable emptyStore
  | step {s : Store} (op : StoreOp) : Reachable s → Reachable (applyOp s op)
  | clr {s : Store} : Reachable s → Reachable (clearStore s)

theorem lookupKV_insertKV_self {α : Type} (k : String) (v : α) (m : List (String × α)) :
    lookupKV k (insertKV k v m) = some v := by
  induction m with
  | nil => simp [insertKV, lookupKV]
  | cons p rest ih =>
    obtain ⟨k₂, v₂⟩ := p
    by_cases h : k₂ = k
    · simp [insertKV, lookupKV, h]
    · simp [insertKV, lookupKV, h, ih]

theorem lookupKV_insertKV_ne {α : Type} {k k₂ : String} (v : α) (m : List (String × α))
    (h : k₂ ≠ k) : lookupKV k₂ (insertKV k v m) = lookupKV k₂ m := by
  have hk : k ≠ k₂ := fun hh => h hh.symm
  induction m with
  | nil => simp [insertKV, lookupKV, hk]
  | cons p rest ih =>
    obtain ⟨k₃, v₃⟩ := p
    by_cases h₃ : k₃ = k
    · subst h₃
      have : k₃ ≠ k₂ := fun hh => h hh.symm
      simp [insertKV, lookupKV, this]
    · simp only [insertKV, if_neg h₃]
      by_cases h₄ : k₃ = k₂
      · simp [lookupKV, h₄]
      · simp [lookupKV, h₄, ih]

theorem lookupKV_eq_none_iff {α : Type} (k : String) (m : List (String × α)) :
    lookupKV k m = none ↔ k ∉ m.map Prod.fst := by
  induction m with
  | nil => simp [lookupKV]
  | cons p rest ih =>
    obtain ⟨k₂, v₂⟩ := p
    by_cases h : k₂ = k
    · simp [lookupKV, h]
    · have hk : k ≠ k₂ := fun hh => h hh.symm
      simp [lookupKV, h, ih, hk]

theorem insertKV_of_lookup_none {α : Type} {k : String} (v : α) {m : List (String × α)}
    (h : lookupKV k m = none) : insertKV k v m = m ++ [(k, v)] := by
  induction m with
  | nil => simp [insertKV]
  | cons p rest ih =>
    obtain ⟨k₂, v₂⟩ := p
    by_cases h₂ : k₂ = k
    · simp [lookupKV, h₂] at h
    · simp only [lookupKV, if_neg h₂] at h
      simp [insertKV, h₂, ih h]

theorem mem_of_lookupKV {α : Type} {k : String} {v : α} {m : List (String × α)}
    (h : lookupKV k m = some v) : (k, v) ∈ m := by
  induction m with
  | nil => simp [lookupKV] at h
  | cons p rest ih =>
    obtain ⟨k₂, v₂⟩ := p
    by_cases h₂ : k₂ = k
    · subst h₂
      simp [lookupKV] at h
      simp [h]
    · simp only [lookupKV, if_neg h₂] at h
      exact List.mem_cons_of_mem _ (ih h)

theorem lookupKV_of_mem_nodup {α : Type} {k : String} {v : α} {m : List (String × α)}
    (hnd : (m.map Prod.fst).Nodup) (h : (k, v) ∈ m) : lookupKV k m = some v := by
  induction m with
  | nil => simp at h
  | cons p rest ih =>
    obtain ⟨k₂, v₂⟩ := p
    simp only [List.map_cons, List.nodup_cons] at hnd
    rcases List.mem_cons.mp h with h₁ | h₁
    · rw [show k₂ = k from (Prod.mk.injEq .. ▸ h₁ : _ ∧ _).1.symm] at hnd ⊢
      rw [show v₂ = v from (Prod.mk.injEq .. ▸ h₁ : _ ∧ _).2.symm]
      simp [lookupKV]
    · have hk : k₂ ≠ k := by
        intro hh
        exact hnd.1 (hh ▸ (List.mem_map.mpr ⟨(k, v), h₁, rfl⟩))
      simp [lookupKV, hk, ih hnd.2 h₁]

theorem mem_insertKV_elim {α : Type} {p : String × α} {k : String} {v : α}
    {m : List (String × α)} (h : p ∈ insertKV k v m) : p = (k, v) ∨ p ∈ m := by
  induction m with
  | nil => simp [insertKV] at h; simp [h]
  | cons q rest ih =>
    obtain ⟨k₂, v₂⟩ := q
    by_cases h₂ : k₂ = k
    · subst h₂
      simp only [insertKV, if_pos rfl] at h
      rcases List.mem_cons.mp h with h₁ | h₁
      · exact Or.inl h₁
      · exact Or.inr (List.mem_cons_of_mem _ h₁)
    · simp only [insertKV, if_neg h₂] at h
      rcases List.mem_cons.mp h with h₁ | h₁
      · exact Or.inr (h₁ ▸ List.mem_cons_self _ _)
      · rcases ih h₁ with h₃ | h₃
        · exact Or.inl h₃
        · exact Or.inr (List.mem_cons_of_mem _ h₃)

theorem self_mem_insertKV {α : Type} (k : String) (v : α) (m : List (String × α)) :
    (k, v) ∈ insertKV k v m :=
  mem_of_lookupKV (lookupKV_insertKV_self k v m)

theorem keys_insertKV_of_mem {α : Type} {k : String} (v : α) {m : List (String × α)}
    (h : k ∈ m.map Prod.fst) : (insertKV k v m).map Prod.fst = m.map Prod.fst := by
  induction m with
  | nil => simp at h
  | cons q rest ih =>
    obtain ⟨k₂, v₂⟩ := q
    by_cases h₂ : k₂ = k
    · simp [insertKV, h₂]
    · simp only [List.map_cons, List.mem_cons] at h
      rcases h with h₁ | h₁
      · exact absurd h₁.symm h₂
      · simp [insertKV, h₂, ih h₁]

theorem keys_insertKV_of_not_mem {α : Type} {k : String} (v : α) {m : List (String × α)}
    (h : k ∉ m.map Prod.fst) : (insertKV k v m).map Prod.fst = m.map Prod.fst ++ [k] := by
  rw [insertKV_of_lookup_none v ((lookupKV_eq_none_iff k m).mpr h)]
  simp

theorem nodup_keys_insertKV {α : Type} (k : String) (v : α) {m : List (String × α)}
    (hnd : (m.map Prod.fst).Nodup) : ((insertKV k v m).map Prod.fst).Nodup := by
  by_cases h : k ∈ m.map Prod.fst
  · rw [keys_insertKV_of_mem v h]; exact hnd
  · rw [keys_insertKV_of_not_mem v h]
    refine List.Nodup.append hnd (List.nodup_singleton k) ?_
    intro a ha hb
    rw [List.mem_singleton] at hb
    exact h (hb ▸ ha)

theorem mem_insertKV_iff {α : Type} {p : String × α} {k : String} {v : α}
    {m : List (String × α)} (hnd : (m.map Prod.fst).Nodup) :
    p ∈ insertKV k v m ↔ p = (k, v) ∨ (p ∈ m ∧ p.1 ≠ k) := by
  constructor
  · intro h
    induction m with
    | nil => simp [insertKV] at h; simp [h]
    | cons q rest ih =>
      obtain ⟨k₂, v₂⟩ := q
      simp only [List.map_cons, List.nodup_cons] at hnd
      by_cases h₂ : k₂ = k
      · subst h₂
        simp only [insertKV, if_pos rfl] at h
        rcases List.mem_cons.mp h with h₁ | h₁
        · exact Or.inl h₁
        · refine Or.inr ⟨List.mem_cons_of_mem _ h₁, fun hh => ?_⟩
          refine hnd.1 ?_
          rw [← hh]
          exact List.mem_map.mpr ⟨p, h₁, rfl⟩
      · simp only [insertKV, if_neg h₂] at h
        rcases List.mem_cons.mp h with h₁ | h₁
        · exact Or.inr ⟨h₁ ▸ List.mem_cons_self _ _, by simp [h₁, h₂]⟩
        · rcases ih hnd.2 h₁ with h₃ | h₃
          · exact Or.inl h₃
          · exact Or.inr ⟨List.mem_cons_of_mem _ h₃.1, h₃.2⟩
  · intro h
    rcases h with h | ⟨hm, hk⟩
    · exact h ▸ self_mem_insertKV k v m
    · induction m with
      | nil => simp at hm
      | cons q rest ih =>
        obtain ⟨k₂, v₂⟩ := q
        simp only [List.map_cons, List.nodup_cons] at hnd
        by_cases h₂ : k₂ = k
        · subst h₂
          rcases List.mem_cons.mp hm with h₁ | h₁
          · exact absurd (by simp [h₁]) hk
          · simp only [insertKV, if_pos rfl]
            exact List.mem_cons_of_mem _ h₁
        · simp only [insertKV, if_neg h₂]
          rcases List.mem_cons.mp hm with h₁ | h₁
          · exact h₁ ▸ List.mem_cons_self _ _
          · exact List.mem_cons_of_mem _ (ih hnd.2 h₁)

theorem lookupKV_values_eq {α : Type} {k : String} {v₁ v₂ : α} {m : List (String × α)}
    (hnd : (m.map Prod.fst).Nodup) (h₁ : (k, v₁) ∈ m) (h₂ : (k, v₂) ∈ m) : v₁ = v₂ := by
  have e₁ := lookupKV_of_mem_nodup hnd h₁
  have e₂ := lookupKV_of_mem_nodup hnd h₂
  rw [e₁] at e₂
  exact Option.some.inj e₂

theorem mem_setAdd (x : String) (l : List String) : x ∈ setAdd x l := by
  unfold setAdd
  by_cases h : x ∈ l
  · simp [h]
  · simp [h]

theorem queuesAdd_mem (q mid : String) (qs : List (String × List String)) :
    ∃ set, lookupKV q (queuesAdd q mid qs) = some set ∧ mid ∈ set := by
  unfold queuesAdd
  cases h : lookupKV q qs with
  | none => exact ⟨[mid], lookupKV_insertKV_self .., List.mem_singleton.mpr rfl⟩
  | some set => exact ⟨setAdd mid set, lookupKV_insertKV_self .., mem_setAdd mid set⟩

/-- An example store holding one received message `m` on queue `q` with
receipt handle `rh`. -/
def exStoreR : Store := recordReceive emptyStore "u" "q" "m" "rh" "b" [] 0 0

/-- `exStoreR` after the receive was resolved by a delete: the
current-state entry for `m` is marked deleted. -/
def exStoreRD : Store := recordDelete exStoreR "u" "q" "rh" 1

/-- C5: `record_delete` on a receipt handle absent from the receipt index
appends exactly one `Delete` event (blank message id and body) to history
and leaves current state, queue membership, and the receipt index
unchanged; the operation is total, so no error is surfaced. -/
theorem recordDelete_unresolved (s : Store) (u q rh : String) (now : Nat)
    (h : lookupKV rh s.receipts = none) :
    (recordDelete s u q rh now).history = s.history ++ [deleteEvent s u q rh now] ∧
    (deleteEvent s u q rh now).messageID = "" ∧
    (deleteEvent s u q rh now).body = "" ∧
    (deleteEvent s u q rh now).action = .delete ∧
    (recordDelete s u q rh now).messages = s.messages ∧
    (recordDelete s u q rh now).queues = s.queues ∧
    (recordDelete s u q rh now).receipts = s.receipts := by
  simp [recordDelete, h, deleteEvent]

theorem recordDelete_unresolved_witness :
    (recordDelete emptyStore "u" "q1" "unknown-handle" 0).messages = emptyStore.messages ∧
    (recordDelete emptyStore "u" "q1" "unknown-handle" 0).history =
      emptyStore.history ++ [deleteEvent emptyStore "u" "q1" "unknown-handle" 0] :=
  ⟨(recordDelete_unresolved emptyStore "u" "q1" "unknown-handle" 0 rfl).2.2.2.2.1,
   (recordDelete_unresolved emptyStore "u" "q1" "unknown-handle" 0 rfl).1⟩

/-- C10: `record_receive` for a message id that already has a
current-state entry leaves the current-state table and the queue
membership table entirely unchanged; only history gains the one receive
event and the receipt index maps the handle to the message id. -/
theorem recordReceive_frame (s : Store) (u q m rh b : String) (a : List (String × String))
    (now now₂ : Nat) (msg : Msg) (h : lookupKV m s.messages = some msg) :
    (recordReceive s u q m rh b a now now₂).messages = s.messages ∧
    (recordReceive s u q m rh b a now now₂).queues = s.queues ∧
    (recordReceive s u q m rh b a now now₂).history =
      s.history ++ [recvEvent s u q m rh b a now] ∧
    (recordReceive s u q m rh b a now now₂).receipts = insertKV rh m s.receipts := by
  simp [recordReceive, h]

theorem recordReceive_frame_witness :
    (recordReceive exStoreR "u2" "q2" "m" "rh2" "b2" [] 5 6).messages = exStoreR.messages ∧
    (recordReceive exStoreR "u2" "q2" "m" "rh2" "b2" [] 5 6).queues = exStoreR.queues :=
  ⟨(recordReceive_frame exStoreR "u2" "q2" "m" "rh2" "b2" [] 5 6
      { id := 1, ref := 2, messageID := "m", receiptHandle := "rh", queueURL := "u",
        queueName := "q", body := "b", attributes := [], action := .receive,
        timestamp := 0, deleted := false, deletedAt := none } (by decide)).1,
   (recordReceive_frame exStoreR "u2" "q2" "m" "rh2" "b2" [] 5 6
      { id := 1, ref := 2, messageID := "m", receiptHandle := "rh", queueURL := "u",
        queueName := "q", body := "b", attributes := [], action := .receive,
        timestamp := 0, deleted := false, deletedAt := none } (by decide)).2.1⟩

/-- C4: `record_receive` always appends exactly one `Receive` event to
history, unconditionally maps the receipt handle to the message id (last
receive wins), and creates a current-state entry plus queue membership
exactly when no current-state entry existed for that message id. -/
theorem recordReceive_spec (s : Store) (u q m rh b : String) (a : List (String × String))
    (now now₂ : Nat) :
    (recordReceive s u q m rh b a now now₂).history =
      s.history ++ [recvEvent s u q m rh b a now] ∧
    (recvEvent s u q m rh b a now).action = .receive ∧
    lookupKV rh (recordReceive s u q m rh b a now now₂).receipts = some m ∧
    (lookupKV m s.messages = none →
      lookupKV m (recordReceive s u q m rh b a now now₂).messages =
        some { recvEvent s u q m rh b a now with ref := s.alloc + 2, timestamp := now₂ } ∧
      ∃ set, lookupKV q (recordReceive s u q m rh b a now now₂).queues = some set ∧ m ∈ set) ∧
    (lookupKV m s.messages ≠ none →
      (recordReceive s u q m rh b a now now₂).messages = s.messages ∧
      (recordReceive s u q m rh b a now now₂).queues = s.queues) := by
  cases hm : lookupKV m s.messages with
  | none =>
    refine ⟨by simp [recordReceive, hm], rfl, by simp [recordReceive, hm, lookupKV_insertKV_self],
      fun _ => ⟨by simp [recordReceive, hm, lookupKV_insertKV_self], ?_⟩,
      fun hc => absurd rfl hc⟩
    simpa [recordReceive, hm] using queuesAdd_mem q m s.queues
  | some msg =>
    exact ⟨by simp [recordReceive, hm], rfl, by simp [recordReceive, hm, lookupKV_insertKV_self],
      fun hc => by simp [hm] at hc, fun _ => ⟨by simp [recordReceive, hm], by simp [recordReceive, hm]⟩⟩

theorem recordReceive_spec_witness :
    lookupKV "rh" (recordReceive emptyStore "u" "q" "m" "rh" "b" [] 0 0).receipts = some "m" ∧
    (∃ set, lookupKV "q" (recordReceive emptyStore "u" "q" "m" "rh" "b" [] 0 0).queues
      = some set ∧ "m" ∈ set) ∧
    (recordReceive exStoreR "u2" "q2" "m" "rh2" "b2" [] 5 6).messages = exStoreR.messages :=
  ⟨(recordReceive_spec emptyStore "u" "q" "m" "rh" "b" [] 0 0).2.2.1,
   ((recordReceive_spec emptyStore "u" "q" "m" "rh" "b" [] 0 0).2.2.2.1 rfl).2,
   ((recordReceive_spec exStoreR "u2" "q2" "m" "rh2" "b2" [] 5 6).2.2.2.2 (by decide)).1⟩

/-- The formatted wall-clock second `20260101120000` as code points, a
sample value of `time.Now().Format("20060102150405")`. -/
def tsStamp : List Nat := "20260101120000".toList.map Char.toNat

/-- C2: the identifier generator is not injective — two records created
within the same clock second with the distinct consecutive counter
values 55296 (0xD800) and 55297 (0xD801) receive byte-identical
identifiers, because Go's `string(rune(n))` collapses every surrogate
value to U+FFFD. -/
theorem generateID_collision :
    goGenerateID tsStamp 55296 = goGenerateID tsStamp 55297 ∧ (55297 : Int) = 55296 + 1 := by
  decide

/-- C1 counterexample: after receive + resolved delete the entry for `m`
has `deleted = true`, but a further `record_send` for the same provider
message id replaces the entry, and the current-state entry for `m` has
`deleted = false` again — without any `clear()`. -/
theorem deleted_flag_resend_cex :
    (lookupKV "m" exStoreRD.messages).map Msg.deleted = some true ∧
    (lookupKV "m" (recordSend exStoreRD "u" "q" "m" "b2" [] 2).messages).map Msg.deleted =
      some false := by
  decide

theorem deleted_flag_step (s : Store) (m : String) (msg : Msg) (op : StoreOp)
    (h : lookupKV m s.messages = some msg) (hdel : msg.deleted = true)
    (hop : sendsTo op m = false) :
    ∃ msg₂, lookupKV m (applyOp s op).messages = some msg₂ ∧ msg₂.deleted = true := by
  cases op with
  | send u q mid b a now =>
    have hne : m ≠ mid := by
      intro hh
      simp [sendsTo, hh] at hop
    rw [show applyOp s (.send u q mid b a now) = recordSend s u q mid b a now from rfl]
    refine ⟨msg, ?_, hdel⟩
    simpa [recordSend] using (lookupKV_insertKV_ne _ s.messages hne).trans h
  | recv u q mid rh b a now now₂ =>
    cases hm : lookupKV mid s.messages with
    | some _ =>
      exact ⟨msg, by simpa [applyOp, recordReceive, hm] using h, hdel⟩
    | none =>
      have hne : m ≠ mid := by
        intro hh
        rw [hh, hm] at h
        exact Option.noConfusion h
      refine ⟨msg, ?_, hdel⟩
      simp only [applyOp, recordReceive, hm]
      simpa using (lookupKV_insertKV_ne _ s.messages hne).trans h
  | del u q rh now =>
    cases hr : lookupKV rh s.receipts with
    | none => exact ⟨msg, by simpa [applyOp, recordDelete, hr] using h, hdel⟩
    | some mid =>
      cases hmm : lookupKV mid s.messages with
      | none => exact ⟨msg, by simpa [applyOp, recordDelete, hr, hmm] using h, hdel⟩
      | some msg₃ =>
        by_cases he : m = mid
        · subst he
          refine ⟨{ msg₃ with deleted := true, deletedAt := some now }, ?_, rfl⟩
          simpa [applyOp, recordDelete, hr, hmm] using lookupKV_insertKV_self m _ s.messages
        · refine ⟨msg, ?_, hdel⟩
          simp only [applyOp, recordDelete, hr, hmm]
          simpa using (lookupKV_insertKV_ne _ s.messages he).trans h

/-- C1 (amended): once a current-state entry's deleted flag is true, it
stays true under every further sequence of `record_receive` /
`record_delete` calls and of `record_send` calls for other message ids;
only a full clear — or a `record_send` reusing the same provider message
id, which replaces the entry by a fresh non-deleted one — removes it. -/
theorem deleted_flag_no_unset (s : Store) (m : String) (msg : Msg) (ops : List StoreOp)
    (h : lookupKV m s.messages = some msg) (hdel : msg.deleted = true)
    (hops : ∀ op ∈ ops, sendsTo op m = false) :
    ∃ msg₂, lookupKV m (applyOps s ops).messages = some msg₂ ∧ msg₂.deleted = true := by
  induction ops generalizing s msg with
  | nil => exact ⟨msg, h, hdel⟩
  | cons op rest ih =>
    obtain ⟨msg₂, h₂, hd₂⟩ :=
      deleted_flag_step s m msg op h hdel (hops op (List.mem_cons_self op rest))
    simpa [applyOps] using
      ih (applyOp s op) msg₂ h₂ hd₂ (fun o ho => hops o (List.mem_cons_of_mem op ho))

theorem deleted_flag_no_unset_witness :
    ∃ msg₂, lookupKV "m"
        (applyOps exStoreRD
          [.recv "u" "q" "m" "rh9" "b9" [] 7 7, .del "u" "q" "rh9" 8,
           .send "u" "q" "other" "x" [] 9]).messages = some msg₂ ∧
      msg₂.deleted = true :=
  deleted_flag_no_unset exStoreRD "m"
    { id := 1, ref := 2, messageID := "m", receiptHandle := "rh", queueURL := "u",
      queueName := "q", body := "b", attributes := [], action := .receive,
      timestamp := 0, deleted := true, deletedAt := some 1 }
    [.recv "u" "q" "m" "rh9" "b9" [] 7 7, .del "u" "q" "rh9" 8, .send "u" "q" "other" "x" [] 9]
    (by decide) rfl (by decide)

theorem key_inv_step (s : Store) (op : StoreOp)
    (h : ∀ p ∈ s.messages, p.2.messageID = p.1) :
    ∀ p ∈ (applyOp s op).messages, p.2.messageID = p.1 := by
  cases op with
  | send u q mid b a now =>
    intro p hp
    simp only [applyOp, recordSend] at hp
    rcases mem_insertKV_elim hp with h₁ | h₁
    · simp [h₁, sendEvent]
    · exact h p h₁
  | recv u q mid rh b a now now₂ =>
    intro p hp
    simp only [applyOp, recordReceive] at hp
    cases hm : lookupKV mid s.messages with
    | some msg =>
      rw [hm] at hp
      exact h p hp
    | none =>
      rw [hm] at hp
      rcases mem_insertKV_elim hp with h₁ | h₁
      · simp [h₁, recvEvent]
      · exact h p h₁
  | del u q rh now =>
    intro p
    cases hr : lookupKV rh s.receipts with
    | none =>
      intro hp
      simp only [applyOp, recordDelete, hr] at hp
      exact h p hp
    | some mid =>
      cases hm : lookupKV mid s.messages with
      | none =>
        intro hp
        simp only [applyOp, recordDelete, hr, hm] at hp
        exact h p hp
      | some msg =>
        intro hp
        simp only [applyOp, recordDelete, hr, hm] at hp
        rcases mem_insertKV_elim hp with h₁ | h₁
        · rw [h₁]
          exact h (mid, msg) (mem_of_lookupKV hm)
        · exact h p h₁

theorem messages_key_inv {s : Store} (h : Reachable s) :
    ∀ p ∈ s.messages, p.2.messageID = p.1 := by
  induction h with
  | empty => simp [emptyStore]
  | clr _ _ => simp [clearStore]
  | step op hs ih => exact key_inv_step _ op ih

/-- C3: `record_send` creates a `Send` event, upserts current state for
the message id, registers queue membership, and appends the event to
history; in particular, sending `"m1"`/`"hi"` to `"q1"` on any reachable
prior state with no entry for `"m1"` makes `get_messages("q1", false)`
contain exactly one entry with message id `"m1"`, and it has body `"hi"`
and `deleted = false`. -/
theorem recordSend_spec :
    (∀ (s : Store) (u q m b : String) (a : List (String × String)) (now : Nat), m ≠ "" →
      (recordSend s u q m b a now).history = s.history ++ [sendEvent s u q m b a now] ∧
      (sendEvent s u q m b a now).action = .send ∧
      lookupKV m (recordSend s u q m b a now).messages = some (sendEvent s u q m b a now) ∧
      ∃ set, lookupKV q (recordSend s u q m b a now).queues = some set ∧ m ∈ set) ∧
    (∀ (s : Store) (u : String) (now : Nat), Reachable s →
      lookupKV "m1" s.messages = none →
      (getMessages (recordSend s u "q1" "m1" "hi" [] now) "q1" false).countP
        (fun e => e.messageID == "m1") = 1 ∧
      ∀ e ∈ getMessages (recordSend s u "q1" "m1" "hi" [] now) "q1" false,
        e.messageID = "m1" → e.body = "hi" ∧ e.deleted = false) := by
  constructor
  · intro s u q m b a now _
    refine ⟨rfl, rfl, ?_, ?_⟩
    · simpa [recordSend] using lookupKV_insertKV_self m _ s.messages
    · simpa [recordSend] using queuesAdd_mem q m s.queues
  · intro s u now hreach hnone
    have hkeys := messages_key_inv hreach
    have hne : ∀ p ∈ s.messages, p.2.messageID ≠ "m1" := by
      intro p hp hcon
      have h₁ : p.1 = "m1" := (hkeys p hp).symm.trans hcon
      exact (lookupKV_eq_none_iff "m1" s.messages).mp hnone
        (List.mem_map.mpr ⟨p, hp, h₁⟩)
    have hmsgs : (recordSend s u "q1" "m1" "hi" [] now).messages
        = s.messages ++ [("m1", sendEvent s u "q1" "m1" "hi" [] now)] := by
      simp [recordSend, insertKV_of_lookup_none _ hnone]
    constructor
    · rw [getMessages, hmsgs, List.countP_map, List.countP_filter, List.countP_append]
      have h₀ : s.messages.countP (fun p =>
          ((fun e => e.messageID == "m1") ∘ Prod.snd) p &&
            !(("q1" != "") && (p.2.queueName != "q1") || (!false && p.2.deleted))) = 0 := by
        rw [List.countP_eq_zero]
        intro p hp
        simp only [Function.comp, Bool.and_eq_true, beq_iff_eq]
        intro hcon
        exact hne p hp hcon.1
      rw [h₀]
      simp [sendEvent]
    · intro e he hme
      rw [getMessages, hmsgs] at he
      rcases List.mem_map.mp he with ⟨p, hpf, hpe⟩
      rcases List.mem_filter.mp hpf with ⟨hpm, _⟩
      rcases List.mem_append.mp hpm with hpl | hpr
      · have hc : p.2.messageID = "m1" := by rw [hpe]; exact hme
        exact absurd hc (hne p hpl)
      · have hp : p = ("m1", sendEvent s u "q1" "m1" "hi" [] now) := List.mem_singleton.mp hpr
        rw [hp] at hpe
        rw [← hpe]
        exact ⟨rfl, rfl⟩

theorem recordSend_spec_witness :
    lookupKV "m1" (recordSend emptyStore "u" "q1" "m1" "hi" [] 0).messages
      = some (sendEvent emptyStore "u" "q1" "m1" "hi" [] 0) ∧
    (getMessages (recordSend emptyStore "u" "q1" "m1" "hi" [] 0) "q1" false).countP
      (fun e => e.messageID == "m1") = 1 :=
  ⟨(recordSend_spec.1 emptyStore "u" "q1" "m1" "hi" [] 0 (by decide)).2.2.1,
   (recordSend_spec.2 emptyStore "u" 0 Reachable.empty rfl).1⟩

theorem getD_range_reverse (xs : List Msg) :
    ∀ l : Nat, l ≤ xs.length →
      (List.range l).map (fun i => xs.getD (xs.length - 1 - i) default) = xs.reverse.take l := by
  intro l
  induction l with
  | zero => intro _; simp
  | succ n ih =>
    intro h
    have hn : n < xs.length := h
    have hrev : n < xs.reverse.length := by simpa using hn
    rw [List.range_succ, List.map_append, ih (Nat.le_of_succ_le h), List.take_succ,
      List.getElem?_eq_getElem hrev]
    simp only [List.map_cons, List.map_nil, Option.toList_some]
    congr 1
    rw [List.getElem_reverse, List.getD_eq_getElem xs default (by omega)]

/-- C6: `get_history(k)` returns the whole history most-recent-first when
`k ≤ 0` or `k` exceeds the history length, and exactly the `k` most
recently appended events, most recent first, when `0 < k ≤ N`. -/
theorem getHistory_spec (s : Store) (k : Int) :
    (k ≤ 0 ∨ (s.history.length : Int) < k → getHistory s k = s.history.reverse) ∧
    (0 < k → k ≤ (s.history.length : Int) →
      getHistory s k = s.history.reverse.take k.toNat) := by
  constructor
  · intro h
    simp only [getHistory]
    rw [if_pos h, getD_range_reverse s.history s.history.length le_rfl]
    rw [show s.history.length = s.history.reverse.length by simp, List.take_length]
  · intro h₁ h₂
    have hcond : ¬(k ≤ 0 ∨ (s.history.length : Int) < k) := by omega
    simp only [getHistory]
    rw [if_neg hcond]
    exact getD_range_reverse s.history k.toNat (by omega)

/-- A store holding two sent messages on queue `q1`, in two history
events. -/
def exStore2 : Store :=
  recordSend (recordSend emptyStore "u" "q1" "a" "1" [] 0) "u" "q1" "b" "2" [] 1

theorem getHistory_spec_witness :
    getHistory exStore2 0 = exStore2.history.reverse ∧
    getHistory exStore2 1 = exStore2.history.reverse.take 1 :=
  ⟨(getHistory_spec exStore2 0).1 (Or.inl (by decide)),
   (getHistory_spec exStore2 1).2 (by decide) (by decide)⟩

theorem isPrefixOf_append_self (l t : List Char) : l.isPrefixOf (l ++ t) = true := by
  induction l with
  | nil => simp [List.isPrefixOf]
  | cons c rest ih => simp [List.isPrefixOf, ih]

/-- C8 counterexample: the explicit action-name header
`"Foo.SendMessage"` has the form `<Namespace>.<Action>` with action
`SendMessage`, yet the identified action is `Unknown`, because only the
literal namespace `AmazonSQS.` is stripped. -/
theorem identifyAction_namespace_cex :
    "Foo.SendMessage" = "Foo" ++ "." ++ "SendMessage" ∧
    identifyAction "Foo.SendMessage" "" = "Unknown" ∧
    ("Unknown" : String) ≠ "SendMessage" := by
  refine ⟨rfl, ?_, by decide⟩
  decide

/-- C8 (amended): a header starting with the literal namespace
`AmazonSQS.` identifies the action as the rest of the header; any other
header falls back to the `Action` field of the request body (the
`Unknown` sentinel when absent); the `Unknown` action maps to no
recording dispatch. -/
theorem identifyAction_amended :
    (∀ act body : String, act ≠ "" → identifyAction ("AmazonSQS." ++ act) body = act) ∧
    (∀ target body : String, parseActionFromTarget target = "" →
      identifyAction target body = parseActionFromForm body) ∧
    dispatchesRecording "Unknown" = false := by
  refine ⟨?_, ?_, by decide⟩
  · intro act body h
    have hlist : ("AmazonSQS." ++ act).toList = "AmazonSQS.".toList ++ act.toList :=
      String.data_append _ _
    have htarget : parseActionFromTarget ("AmazonSQS." ++ act) = act := by
      rw [parseActionFromTarget, hlist, if_pos (isPrefixOf_append_self _ _)]
      rw [show (10 : Nat) = "AmazonSQS.".toList.length from rfl, List.drop_left]
      rfl
    rw [identifyAction, htarget]
    simp [h]
  · intro target body h
    rw [identifyAction, h]
    simp

theorem identifyAction_amended_witness :
    identifyAction ("AmazonSQS." ++ "SendMessage") "" = "SendMessage" ∧
    identifyAction "Other.Send" "Action=DeleteMessage" =
      parseActionFromForm "Action=DeleteMessage" :=
  ⟨identifyAction_amended.1 "SendMessage" "" (by decide),
   identifyAction_amended.2.1 "Other.Send" "Action=DeleteMessage" (by decide)⟩

/-- Number of history events of queue `q` with kind `a`. -/
def countKind (evs : List Msg) (q : String) (a : MessageAction) : Nat :=
  evs.countP (fun e => e.queueName == q && e.action == a)

theorem bumpStat_fields (st : QueueStats) (a : MessageAction) :
    (bumpStat st a).queueName = st.queueName ∧ (bumpStat st a).queueURL = st.queueURL ∧
    (bumpStat st a).pending = st.pending ∧
    (bumpStat st a).totalSent = st.totalSent + (if a = .send then 1 else 0) ∧
    (bumpStat st a).totalReceived = st.totalReceived + (if a = .receive then 1 else 0) ∧
    (bumpStat st a).totalDeleted = st.totalDeleted + (if a = .delete then 1 else 0) := by
  cases a <;> simp [bumpStat]

theorem countKind_append_single (evs : List Msg) (e : Msg) (q : String) (a : MessageAction) :
    countKind (evs ++ [e]) q a =
      countKind evs q a + (if e.queueName = q ∧ e.action = a then 1 else 0) := by
  rw [countKind, List.countP_append, countKind]
  congr 1
  rw [List.countP_cons]
  simp only [List.countP_nil, Nat.zero_add]
  by_cases h : e.queueName = q ∧ e.action = a
  · simp [h.1, h.2]
  · rw [if_neg h, if_neg]
    simp only [Bool.and_eq_true, beq_iff_eq]
    exact h

theorem countKind_eq_zero {evs : List Msg} {q : String} (a : MessageAction)
    (h : ¬∃ e ∈ evs, e.queueName = q) : countKind evs q a = 0 := by
  rw [countKind, List.countP_eq_zero]
  intro e he
  simp only [Bool.and_eq_true, beq_iff_eq]
  intro hc
  exact h ⟨e, he, hc.1⟩

/-- Invariant of the first `GetQueueStats` pass: after folding the
events `evs`, the accumulator has one entry per queue name of `evs`,
keyed consistently, with exact per-kind counts and pending zero. -/
def StatsInv (evs : List Msg) (acc : List (String × QueueStats)) : Prop :=
  ((acc.map Prod.fst).Nodup) ∧
  (∀ p ∈ acc, p.2.queueName = p.1 ∧ p.2.pending = 0 ∧
    p.2.totalSent = countKind evs p.1 .send ∧
    p.2.totalReceived = countKind evs p.1 .receive ∧
    p.2.totalDeleted = countKind evs p.1 .delete) ∧
  (∀ k, k ∈ acc.map Prod.fst ↔ ∃ e ∈ evs, e.queueName = k)

theorem statsStep_inv {evs : List Msg} {acc : List (String × QueueStats)} (e : Msg)
    (h : StatsInv evs acc) : StatsInv (evs ++ [e]) (statsStep acc e) := by
  obtain ⟨hnd, hent, hiff⟩ := h
  unfold statsStep
  cases hl : lookupKV e.queueName acc with
  | none =>
    have hnm : e.queueName ∉ acc.map Prod.fst := (lookupKV_eq_none_iff _ _).mp hl
    have hzero : ∀ a, countKind evs e.queueName a = 0 := fun a =>
      countKind_eq_zero a (fun hc => hnm ((hiff e.queueName).mpr hc))
    rw [insertKV_of_lookup_none _ hl]
    refine ⟨?_, ?_, ?_⟩
    · rw [List.map_append]
      refine List.Nodup.append hnd (by simp) ?_
      intro x hx hx₂
      simp only [List.map_cons, List.map_nil, List.mem_singleton] at hx₂
      exact hnm (hx₂ ▸ hx)
    · intro p hp
      rcases List.mem_append.mp hp with h₁ | h₁
      · obtain ⟨hqn, hpend, hs₂, hr₂, hd₂⟩ := hent p h₁
        have hne : ¬(e.queueName = p.1 ∧ True) ∧ True := ⟨fun hc =>
          hnm (hc.1 ▸ List.mem_map.mpr ⟨p, h₁, rfl⟩), trivial⟩
        refine ⟨hqn, hpend, ?_, ?_, ?_⟩ <;>
          rw [countKind_append_single, if_neg (fun hc => hne.1 ⟨hc.1, trivial⟩)] <;>
          simp [hs₂, hr₂, hd₂]
      · rw [List.mem_singleton.mp h₁]
        cases ha : e.action <;>
          simp [bumpStat, initStats, countKind_append_single, hzero, ha]
    · intro k
      rw [List.map_append]
      simp only [List.mem_append, List.map_cons, List.map_nil, List.mem_singleton]
      rw [hiff k]
      constructor
      · rintro (⟨e₂, he₂, rfl⟩ | rfl)
        · exact ⟨e₂, Or.inl he₂, rfl⟩
        · exact ⟨e, Or.inr rfl, rfl⟩
      · rintro ⟨e₂, he₂, rfl⟩
        rcases he₂ with h₁ | h₁
        · exact Or.inl ⟨e₂, h₁, rfl⟩
        · rw [h₁]
          exact Or.inr rfl
  | some st =>
    have hmem : (e.queueName, st) ∈ acc := mem_of_lookupKV hl
    have hkey : e.queueName ∈ acc.map Prod.fst := List.mem_map.mpr ⟨_, hmem, rfl⟩
    refine ⟨by rw [keys_insertKV_of_mem _ hkey]; exact hnd, ?_, ?_⟩
    · intro p hp
      rcases (mem_insertKV_iff hnd).mp hp with h₁ | ⟨h₁, h₂⟩
      · rw [h₁]
        obtain ⟨hqn, hpend, hs₂, hr₂, hd₂⟩ := hent (e.queueName, st) hmem
        dsimp only at hqn hpend hs₂ hr₂ hd₂
        cases ha : e.action <;>
          simp [bumpStat, countKind_append_single, ha, hqn, hpend, hs₂, hr₂, hd₂]
      · obtain ⟨hqn, hpend, hs₂, hr₂, hd₂⟩ := hent p h₁
        refine ⟨hqn, hpend, ?_, ?_, ?_⟩ <;>
          rw [countKind_append_single, if_neg (fun hc => h₂ hc.1.symm)] <;>
          simp [hs₂, hr₂, hd₂]
    · intro k
      rw [keys_insertKV_of_mem _ hkey, hiff k]
      constructor
      · rintro ⟨e₂, he₂, rfl⟩
        exact ⟨e₂, List.mem_append_left _ he₂, rfl⟩
      · rintro ⟨e₂, he₂, rfl⟩
        rcases List.mem_append.mp he₂ with h₁ | h₁
        · exact ⟨e₂, h₁, rfl⟩
        · rw [List.mem_singleton.mp h₁]
          exact (hiff e.queueName).mp hkey

theorem statsPass1_inv (history : List Msg) : StatsInv history (statsPass1 history) := by
  induction history using List.reverseRecOn with
  | nil =>
    refine ⟨by simp [statsPass1], by simp [statsPass1], ?_⟩
    intro k
    simp [statsPass1]
  | append_singleton l e ih =>
    rw [statsPass1, List.foldl_concat]
    exact statsStep_inv e ih

theorem queuesAdd_keys_nodup (q mid : String) {qs : List (String × List String)}
    (h : (qs.map Prod.fst).Nodup) : ((queuesAdd q mid qs).map Prod.fst).Nodup := by
  unfold queuesAdd
  cases lookupKV q qs with
  | none => exact nodup_keys_insertKV _ _ h
  | some set => exact nodup_keys_insertKV _ _ h

theorem queues_nodup_step (s : Store) (op : StoreOp) (h : (s.queues.map Prod.fst).Nodup) :
    ((applyOp s op).queues.map Prod.fst).Nodup := by
  cases op with
  | send u q mid b a now =>
    simp only [applyOp, recordSend]
    exact queuesAdd_keys_nodup q mid h
  | recv u q mid rh b a now now₂ =>
    cases hm : lookupKV mid s.messages with
    | some msg =>
      simp only [applyOp, recordReceive, hm]
      exact h
    | none =>
      simp only [applyOp, recordReceive, hm]
      exact queuesAdd_keys_nodup q mid h
  | del u q rh now =>
    cases hr : lookupKV rh s.receipts with
    | none =>
      simp only [applyOp, recordDelete, hr]
      exact h
    | some mid =>
      cases hm : lookupKV mid s.messages with
      | none =>
        simp only [applyOp, recordDelete, hr, hm]
        exact h
      | some msg =>
        simp only [applyOp, recordDelete, hr, hm]
        exact h

theorem queues_keys_nodup {s : Store} (h : Reachable s) : (s.queues.map Prod.fst).Nodup := by
  induction h with
  | empty => simp [emptyStore]
  | clr _ _ => simp [clearStore]
  | step op hs ih => exact queues_nodup_step _ op ih

theorem exists_value_of_mem_keys {α : Type} {k : String} {m : List (String × α)}
    (h : k ∈ m.map Prod.fst) : ∃ v, (k, v) ∈ m := by
  rcases List.mem_map.mp h with ⟨p, hp, hk⟩
  exact ⟨p.2, by rw [← hk]; exact hp⟩

theorem pass2_fold_spec (ms : List (String × Msg)) :
    ∀ qs : List (String × List String), (qs.map Prod.fst).Nodup →
    ∀ acc : List (String × QueueStats), (acc.map Prod.fst).Nodup →
      ((qs.foldl (pass2Step ms) acc).map Prod.fst = acc.map Prod.fst) ∧
      (∀ k st, (k, st) ∈ acc →
        (k, match lookupKV k qs with
            | some set => { st with pending := pendingCount ms set }
            | none => st) ∈ qs.foldl (pass2Step ms) acc) := by
  intro qs
  induction qs with
  | nil =>
    intro _ acc hnd
    refine ⟨rfl, fun k st h => ?_⟩
    simpa [lookupKV] using h
  | cons qp rest ih =>
    obtain ⟨q, set⟩ := qp
    intro hq acc hnd
    have hq₁ : q ∉ rest.map Prod.fst := (List.nodup_cons.mp (by simpa using hq)).1
    have hq₂ : (rest.map Prod.fst).Nodup := (List.nodup_cons.mp (by simpa using hq)).2
    rw [List.foldl_cons]
    cases hl : lookupKV q acc with
    | none =>
      simp only [pass2Step, hl]
      obtain ⟨ihk, ihm⟩ := ih hq₂ acc hnd
      refine ⟨ihk, ?_⟩
      intro k st hmem
      have hkne : ¬(q = k) := by
        intro hh
        rw [hh, lookupKV_of_mem_nodup hnd hmem] at hl
        exact Option.noConfusion hl
      have hred : lookupKV k ((q, set) :: rest) = lookupKV k rest := by
        simp only [lookupKV, if_neg hkne]
      rw [hred]
      exact ihm k st hmem
    | some st₂ =>
      simp only [pass2Step, hl]
      have hqmem : q ∈ acc.map Prod.fst :=
        List.mem_map.mpr ⟨(q, st₂), mem_of_lookupKV hl, rfl⟩
      have hkeys₁ : (insertKV q { st₂ with pending := pendingCount ms set } acc).map Prod.fst
          = acc.map Prod.fst := keys_insertKV_of_mem _ hqmem
      have hnd₁ : ((insertKV q { st₂ with pending := pendingCount ms set } acc).map
          Prod.fst).Nodup := by rw [hkeys₁]; exact hnd
      obtain ⟨ihk, ihm⟩ := ih hq₂ _ hnd₁
      refine ⟨ihk.trans hkeys₁, ?_⟩
      intro k st hmem
      by_cases hk : k = q
      · subst hk
        have hst : st = st₂ := by
          have h₂ := lookupKV_of_mem_nodup hnd hmem
          rw [hl] at h₂
          exact (Option.some.inj h₂).symm
        subst hst
        have hred : lookupKV k ((k, set) :: rest) = some set := by
          simp [lookupKV]
        rw [hred]
        have h₃ := ihm k { st with pending := pendingCount ms set } (self_mem_insertKV ..)
        have hnone : lookupKV k rest = none := (lookupKV_eq_none_iff _ _).mpr hq₁
        rw [hnone] at h₃
        exact h₃
      · have hmem₁ : (k, st) ∈ insertKV q { st₂ with pending := pendingCount ms set } acc :=
          (mem_insertKV_iff hnd).mpr (Or.inr ⟨hmem, hk⟩)
        have hred : lookupKV k ((q, set) :: rest) = lookupKV k rest := by
          simp only [lookupKV, if_neg (fun hh : q = k => hk hh.symm)]
        rw [hred]
        exact ihm k st hmem₁

/-- A store in which one provider message id was sent to `q1` and then
re-sent to `q2` (the upsert moved its current-state entry to `q2`). -/
def exStoreSS : Store :=
  recordSend (recordSend emptyStore "u1" "q1" "m" "b" [] 0) "u2" "q2" "m" "b" [] 1

/-- C7 counterexample: in `exStoreSS` the stats entry for `q1` reports
`pending = 1` (computed over `q1`'s membership set), yet the number of
current-state entries whose queue name is `q1` and whose deleted flag is
false is `0` — the claim's reading of pending does not match the code. -/
theorem getQueueStats_pending_cex :
    ((getQueueStats exStoreSS).filter (fun st => st.queueName == "q1")).map QueueStats.pending
      = [1] ∧
    exStoreSS.messages.countP (fun p => p.2.queueName == "q1" && !p.2.deleted) = 0 := by
  decide

/-- C7 (amended): on every reachable store, `get_queue_stats` returns one
entry per queue name occurring in history and no others; each entry's
sent/received/deleted totals equal the per-kind history counts for that
queue name; and each entry's pending equals the number of ids in that
queue's membership set whose current-state entry exists with
`deleted = false` (zero when the queue has no membership set). -/
theorem getQueueStats_amended (s : Store) (hs : Reachable s) :
    ((getQueueStats s).Pairwise (fun a b => a.queueName ≠ b.queueName)) ∧
    (∀ q, (∃ st ∈ getQueueStats s, st.queueName = q) ↔ ∃ e ∈ s.history, e.queueName = q) ∧
    (∀ st ∈ getQueueStats s,
      st.totalSent = countKind s.history st.queueName .send ∧
      st.totalReceived = countKind s.history st.queueName .receive ∧
      st.totalDeleted = countKind s.history st.queueName .delete ∧
      st.pending = (match lookupKV st.queueName s.queues with
                    | some set => pendingCount s.messages set
                    | none => 0)) := by
  obtain ⟨hnd, hent, hiff⟩ := statsPass1_inv s.history
  have hq := queues_keys_nodup hs
  obtain ⟨hkeysR, hmemR⟩ :=
    pass2_fold_spec s.messages s.queues hq (statsPass1 s.history) hnd
  have hRdef : getQueueStats s
      = (s.queues.foldl (pass2Step s.messages) (statsPass1 s.history)).map Prod.snd := rfl
  have hndR : ((s.queues.foldl (pass2Step s.messages) (statsPass1 s.history)).map
      Prod.fst).Nodup := by rw [hkeysR]; exact hnd
  have hchar : ∀ p ∈ s.queues.foldl (pass2Step s.messages) (statsPass1 s.history),
      ∃ st₀, (p.1, st₀) ∈ statsPass1 s.history ∧
        p.2 = (match lookupKV p.1 s.queues with
               | some set => { st₀ with pending := pendingCount s.messages set }
               | none => st₀) := by
    intro p hp
    have hk : p.1 ∈ (s.queues.foldl (pass2Step s.messages) (statsPass1 s.history)).map
        Prod.fst := List.mem_map.mpr ⟨p, hp, rfl⟩
    rw [hkeysR] at hk
    obtain ⟨st₀, h₀⟩ := exists_value_of_mem_keys hk
    exact ⟨st₀, h₀, lookupKV_values_eq hndR hp (hmemR p.1 st₀ h₀)⟩
  have hqname : ∀ p ∈ s.queues.foldl (pass2Step s.messages) (statsPass1 s.history),
      p.2.queueName = p.1 := by
    intro p hp
    obtain ⟨st₀, h₀, hF⟩ := hchar p hp
    have hq₀ : st₀.queueName = p.1 := (hent (p.1, st₀) h₀).1
    rw [hF]
    cases lookupKV p.1 s.queues <;> simpa using hq₀
  refine ⟨?_, ?_, ?_⟩
  · rw [hRdef, List.pairwise_map]
    have hpair : (s.queues.foldl (pass2Step s.messages) (statsPass1 s.history)).Pairwise
        (fun a b => a.1 ≠ b.1) := List.pairwise_map.mp hndR
    refine List.Pairwise.imp_of_mem ?_ hpair
    intro a b ha hb hne
    rw [hqname a ha, hqname b hb]
    exact hne
  · intro q
    constructor
    · rintro ⟨st, hst, rfl⟩
      rw [hRdef] at hst
      obtain ⟨p, hp, hps⟩ := List.mem_map.mp hst
      rw [← hps, hqname p hp]
      have hk : p.1 ∈ (s.queues.foldl (pass2Step s.messages) (statsPass1 s.history)).map
          Prod.fst := List.mem_map.mpr ⟨p, hp, rfl⟩
      rw [hkeysR] at hk
      exact (hiff p.1).mp hk
    · intro he
      have hk : q ∈ (statsPass1 s.history).map Prod.fst := (hiff q).mpr he
      obtain ⟨st₀, h₀⟩ := exists_value_of_mem_keys hk
      have h₁ := hmemR q st₀ h₀
      refine ⟨_, by rw [hRdef]; exact List.mem_map.mpr ⟨_, h₁, rfl⟩, ?_⟩
      have hq₀ : st₀.queueName = q := (hent (q, st₀) h₀).1
      cases lookupKV q s.queues <;> simpa using hq₀
  · intro st hst
    rw [hRdef] at hst
    obtain ⟨p, hp, hps⟩ := List.mem_map.mp hst
    obtain ⟨st₀, h₀, hF⟩ := hchar p hp
    obtain ⟨hq₀, hpend₀, hs₀, hr₀, hd₀⟩ := hent (p.1, st₀) h₀
    dsimp only at hq₀ hpend₀ hs₀ hr₀ hd₀
    cases hlq : lookupKV p.1 s.queues with
    | none =>
      rw [hlq] at hF
      rw [← hps, hF, hq₀]
      simp only [hlq]
      exact ⟨hs₀, hr₀, hd₀, hpend₀⟩
    | some set =>
      rw [hlq] at hF
      rw [← hps, hF]
      dsimp only
      rw [hq₀]
      simp only [hlq]
      exact ⟨hs₀, hr₀, hd₀, trivial⟩

theorem getQueueStats_amended_witness :
    (getQueueStats exStore2).Pairwise (fun a b => a.queueName ≠ b.queueName) ∧
    (∃ st ∈ getQueueStats exStore2, st.queueName = "q1") := by
  have hreach : Reachable exStore2 :=
    Reachable.step (StoreOp.send "u" "q1" "b" "2" [] 1)
      (Reachable.step (StoreOp.send "u" "q1" "a" "1" [] 0) Reachable.empty)
  exact ⟨(getQueueStats_amended exStore2 hreach).1,
    ((getQueueStats_amended exStore2 hreach).2.1 "q1").mpr
      ⟨sendEvent emptyStore "u" "q1" "a" "1" [] 0, by decide, rfl⟩⟩

theorem lookupKV_append_of_none {α : Type} {k : String} {l₁ : List (String × α)}
    (l₂ : List (String × α)) (h : lookupKV k l₁ = none) :
    lookupKV k (l₁ ++ l₂) = lookupKV k l₂ := by
  induction l₁ with
  | nil => rfl
  | cons p rest ih =>
    obtain ⟨k₂, v₂⟩ := p
    by_cases hk : k₂ = k
    · simp [lookupKV, hk] at h
    · simp only [lookupKV, if_neg hk] at h
      simp only [List.cons_append, lookupKV, if_neg hk]
      exact ih h

theorem foldl_insert_nodup (pairs : List (String × String)) :
    ∀ acc : List (String × String), (acc.map Prod.fst).Nodup →
      ((pairs.foldl (fun m p => insertKV p.1 p.2 m) acc).map Prod.fst).Nodup := by
  induction pairs with
  | nil => intro acc h; exact h
  | cons p rest ih =>
    intro acc h
    rw [List.foldl_cons]
    exact ih _ (nodup_keys_insertKV _ _ h)

theorem buildKV_keys_nodup (pairs : List (String × String)) :
    ((buildKV pairs).map Prod.fst).Nodup :=
  foldl_insert_nodup pairs [] (by simp)

theorem attrNames_keys_nodup (body : String) : ((attrNames body).map Prod.fst).Nodup :=
  buildKV_keys_nodup _

/-- The index-keyed join of the two attribute maps: for each name entry
whose index also has a value, one `(name, value)` pair. -/
def joinKV (V N : List (String × String)) : List (String × String) :=
  N.filterMap (fun p => (lookupKV p.1 V).map (fun v => (p.2, v)))

theorem extract_foldl_join (V : List (String × String)) :
    ∀ N acc : List (String × String),
      (∀ p ∈ N, lookupKV p.2 acc = none) →
      N.Pairwise (fun p₂ q₂ => p₂.2 ≠ q₂.2) →
      N.foldl (fun attrs p =>
        match lookupKV p.1 V with
        | some v => insertKV p.2 v attrs
        | none => attrs) acc = acc ++ joinKV V N := by
  intro N
  induction N with
  | nil =>
    intro acc _ _
    simp [joinKV]
  | cons p rest ih =>
    intro acc hacc hpair
    obtain ⟨hhead, htail⟩ := List.pairwise_cons.mp hpair
    rw [List.foldl_cons]
    cases hv : lookupKV p.1 V with
    | none =>
      simp only [hv]
      rw [ih acc (fun q₂ hq₂ => hacc q₂ (List.mem_cons_of_mem p hq₂)) htail]
      simp [joinKV, List.filterMap_cons, hv]
    | some v =>
      simp only [hv]
      have hnone : lookupKV p.2 acc = none := hacc p (List.mem_cons_self p rest)
      have hstep : ∀ q₂ ∈ rest, lookupKV q₂.2 (insertKV p.2 v acc) = none := by
        intro q₂ hq₂
        rw [insertKV_of_lookup_none _ hnone,
          lookupKV_append_of_none _ (hacc q₂ (List.mem_cons_of_mem p hq₂))]
        simp [lookupKV, fun hh : p.2 = q₂.2 => hhead q₂ hq₂ hh]
      rw [ih (insertKV p.2 v acc) hstep htail, insertKV_of_lookup_none _ hnone,
        List.append_assoc]
      simp [joinKV, List.filterMap_cons, hv]

theorem extract_fold_nodup (V : List (String × String)) :
    ∀ N acc : List (String × String), (acc.map Prod.fst).Nodup →
      ((N.foldl (fun attrs p =>
        match lookupKV p.1 V with
        | some v => insertKV p.2 v attrs
        | none => attrs) acc).map Prod.fst).Nodup := by
  intro N
  induction N with
  | nil => intro acc h; exact h
  | cons p rest ih =>
    intro acc h
    rw [List.foldl_cons]
    cases hv : lookupKV p.1 V with
    | none =>
      simp only [hv]
      exact ih acc h
    | some v =>
      simp only [hv]
      exact ih _ (nodup_keys_insertKV _ _ h)

/-- C9 (amended): for any form body whose decoded attribute names at
distinct indices are pairwise distinct, the extracted map has unique
names, and it contains `(n, v)` exactly when some index key maps to name
`n` in the names map and to value `v` in the values map (both halves
present; last occurrence of a repeated index key wins; correlation is by
index key only, so textual order and non-contiguous indices are
irrelevant). -/
theorem extractAttributes_amended (body : String)
    (hdist : (attrNames body).Pairwise (fun p₂ q₂ => p₂.2 ≠ q₂.2)) :
    (((extractMessageAttributesForm body).map Prod.fst).Nodup) ∧
    (∀ n v, (n, v) ∈ extractMessageAttributesForm body ↔
      ∃ idx, lookupKV idx (attrNames body) = some n ∧
        lookupKV idx (attrValues body) = some v) := by
  have hjoin : extractMessageAttributesForm body
      = joinKV (attrValues body) (attrNames body) := by
    have h₁ := extract_foldl_join (attrValues body) (attrNames body) []
      (fun p _ => rfl) hdist
    simpa [extractMessageAttributesForm] using h₁
  refine ⟨extract_fold_nodup (attrValues body) (attrNames body) [] (by simp), ?_⟩
  intro n v
  rw [hjoin]
  constructor
  · intro hmem
    obtain ⟨p, hp, hps⟩ := List.mem_filterMap.mp hmem
    cases hv : lookupKV p.1 (attrValues body) with
    | none =>
      rw [hv] at hps
      exact absurd hps (by simp)
    | some v₂ =>
      rw [hv] at hps
      have h₂ : (p.2, v₂) = (n, v) := Option.some.inj hps
      have hpn : p.2 = n := congrArg Prod.fst h₂
      have hvv : v₂ = v := congrArg Prod.snd h₂
      refine ⟨p.1, ?_, ?_⟩
      · rw [← hpn]
        exact lookupKV_of_mem_nodup (attrNames_keys_nodup body) hp
      · rw [hv]
        exact congrArg some hvv
  · rintro ⟨idx, hn, hv⟩
    refine List.mem_filterMap.mpr ⟨(idx, n), mem_of_lookupKV hn, ?_⟩
    dsimp only
    rw [hv]
    rfl

/-- A form body carrying attribute indices 7 and 3, textually unsorted
and with the two halves of each index far apart. -/
def exAttrBody : String :=
  "MessageAttribute.7.Name=a&MessageAttribute.3.Value.StringValue=y&MessageAttribute.3.Name=b&MessageAttribute.7.Value.StringValue=x"

set_option maxRecDepth 10000 in
theorem extractAttributes_amended_witness :
    ("a", "x") ∈ extractMessageAttributesForm exAttrBody ∧
    ("b", "y") ∈ extractMessageAttributesForm exAttrBody :=
  ⟨((extractAttributes_amended exAttrBody (by decide)).2 "a" "x").mpr
    ⟨"7", by decide, by decide⟩,
   ((extractAttributes_amended exAttrBody (by decide)).2 "b" "y").mpr
    ⟨"3", by decide, by decide⟩⟩

/-- A form body in which indices 1 and 2 both carry complete
name/value halves but their names decode to the same string `foo`. -/
def cxAttrBody : String :=
  "MessageAttribute.1.Name=foo&MessageAttribute.1.Value.StringValue=a&MessageAttribute.2.Name=foo&MessageAttribute.2.Value.StringValue=b"

set_option maxRecDepth 10000 in
/-- C9 counterexample: both index 1 (name `foo`, value `a`) and index 2
(name `foo`, value `b`) are complete, so the claim requires one map
entry per index — both `foo → a` and `foo → b` — but the extracted
name-keyed map cannot and does not contain both. -/
theorem extractAttributes_collision_cex :
    lookupKV "1" (attrNames cxAttrBody) = some "foo" ∧
    lookupKV "1" (attrValues cxAttrBody) = some "a" ∧
    lookupKV "2" (attrNames cxAttrBody) = some "foo" ∧
    lookupKV "2" (attrValues cxAttrBody) = some "b" ∧
    ¬(("foo", "a") ∈ extractMessageAttributesForm cxAttrBody ∧
      ("foo", "b") ∈ extractMessageAttributesForm cxAttrBody) := by
  decide
